import Mathlib

/-!
Shallow embedding of the opacity package (dsharp_opac): the dielectric
constant model `diel_const` (interpolation, range check, extrapolation),
the effective-medium mixer `diel_mixed` (Bruggeman and Maxwell-Garnett
rules), the size distributions, the Mie sweep's large-size-parameter
policy in `get_mie_coefficients`, the Mueller matrix assembly, and the
size-averaged opacity entry point.

Real numpy arrays are modelled as `List ℝ` (or index functions), complex
values as `ℂ`, and fallible calls as `Except`.  External collaborators
(scipy `curve_fit`, `fsolve`, mpmath `findroot`, the injected
`bhmie_function`) are modelled as injected function parameters, matching
the spec's capability-injection design notes.
-/

open scoped Real

namespace DsharpOpac

/-- `np.log10` on positive reals. -/
noncomputable def log10R (x : ℝ) : ℝ := Real.logb 10 x

/-- `np.interp` (piecewise-linear interpolation with clamping at both ends)
for a scalar query over tabulated nodes `xs` with values `ys`. -/
noncomputable def interpL (x : ℝ) : List ℝ → List ℝ → ℝ
  | x0 :: x1 :: xs, y0 :: y1 :: ys =>
    if x ≤ x0 then y0
    else if x ≤ x1 then y0 + (y1 - y0) * (x - x0) / (x1 - x0)
    else interpL x (x1 :: xs) (y1 :: ys)
  | [_], [y0] => y0
  | _, _ => 0

/-- The state of a `diel_const` object: tabulated wavelength grid,
refractive index data `n`, `k`, their log10 counterparts, the stored
wavelength bounds and the negative-`n` flag, as set up in
`diel_const.__init__`. -/
structure DielConst where
  l : List ℝ
  n : List ℝ
  k : List ℝ
  ll : List ℝ
  ln : List ℝ
  lk : List ℝ
  lmin : ℝ
  lmax : ℝ
  has_negative_n : Prop

/-- `diel_const.__init__(lam, n, k)` for array data: stores the data,
its base-10 logs, the bounds `lam[0]`, `lam[-1]`, and whether any
tabulated `n` is non-positive. -/
noncomputable def diel_const_mk (lam n k : List ℝ) : DielConst :=
  { l := lam
    n := n
    k := k
    ll := lam.map log10R
    ln := n.map log10R
    lk := k.map log10R
    lmin := lam.headD 0
    lmax := lam.getLastD 0
    has_negative_n := ∃ x ∈ n, x ≤ 0 }

/-- `diel_const.nk(l)` for a scalar wavelength: raises when the query is
outside the stored bounds, otherwise interpolates log-log, falling back
to linear interpolation of `n` when negative tabulated `n` values make
the log-estimate negative. -/
noncomputable def diel_const_nk (d : DielConst) (l : ℝ) : Except String (ℝ × ℝ) :=
  if l < d.lmin ∨ d.lmax < l then
    Except.error "wavelength outside data-range"
  else
    let log_interp : Prop := ¬ (d.has_negative_n ∧ interpL l d.l d.n < 0)
    have : Decidable log_interp := Classical.propDecidable _
    if log_interp then
      Except.ok ((10:ℝ) ^ interpL (log10R l) d.ll d.ln,
                 (10:ℝ) ^ interpL (log10R l) d.ll d.lk)
    else
      Except.ok (interpL l d.l d.n,
                 (10:ℝ) ^ interpL (log10R l) d.ll d.lk)

/-- Modelled from the spec: the in-range interpolation contract of
`DielectricModel.nk` in the spec's words — interpolate `log10 n` and
`log10 k` against `log10 wavelength`, except that when some tabulated
`n ≤ 0` exists and the linear-in-wavelength estimate of `n` at the query
is negative, return the linearly interpolated `n` instead; `k` is
interpolated in log space in every case. -/
noncomputable def nk_spec (d : DielConst) (l : ℝ) : ℝ × ℝ :=
  have : Decidable ((∃ x ∈ d.n, x ≤ 0) ∧ interpL l d.l d.n < 0) :=
    Classical.propDecidable _
  if (∃ x ∈ d.n, x ≤ 0) ∧ interpL l d.l d.n < 0 then
    (interpL l d.l d.n, (10:ℝ) ^ interpL (log10R l) (d.l.map log10R) (d.k.map log10R))
  else
    ((10:ℝ) ^ interpL (log10R l) (d.l.map log10R) (d.n.map log10R),
     (10:ℝ) ^ interpL (log10R l) (d.l.map log10R) (d.k.map log10R))

/-- `np.sqrt` on a complex number: the principal square root (real part
nonnegative, branch cut on the negative real axis mapping to `+i`). -/
noncomputable def csqrt (z : ℂ) : ℂ :=
  (Real.sqrt ((Complex.abs z + z.re) / 2) : ℝ) +
    ((if z.im < 0 then (-1:ℝ) else 1) * Real.sqrt ((Complex.abs z - z.re) / 2) : ℝ) *
      Complex.I

/-- The permittivities `eps = (n + i k)**2` of the constituents of a
`diel_mixed` object at one wavelength (`diel_mixed.nk`, loop body).
Each constituent is modelled by its `nk` response function. -/
noncomputable def eps_at (constituents : List (ℝ → ℝ × ℝ)) (l : ℝ) : List ℂ :=
  constituents.map fun c => (((c l).1 : ℂ) + ((c l).2 : ℂ) * Complex.I) ^ 2

/-- The residual of the Bruggeman mixing rule handed to the complex root
finder: `sum(abundances * ((eps - x) / (eps + 2 * x)))`. -/
noncomputable def bruggeman_sum (abundances : List ℝ) (eps : List ℂ) (x : ℂ) : ℂ :=
  (List.zipWith (fun (f : ℝ) (e : ℂ) => Complex.ofReal f * ((e - x) / (e + 2 * x)))
    abundances eps).sum

/-- The Maxwell-Garnett closed form of `diel_mixed.nk` (Bohren & Huffman
branch): component 0 is the host, `beta_i = 3 eps_m / (eps_i + 2 eps_m)`,
`eps_mean = ((1 - f) eps_m + sum f_i beta_i eps_i) / (1 - f + sum f_i beta_i)`. -/
noncomputable def maxwellGarnett (abundances : List ℝ) (eps : List ℂ) : ℂ :=
  let eps_m := eps.headD 0
  let eps_i := eps.tail
  let f_i := abundances.tail
  let beta_i := eps_i.map fun e => 3 * eps_m / (e + 2 * eps_m)
  let f : ℝ := f_i.sum
  ((1 - (f : ℂ)) * eps_m +
      (List.zipWith (fun (fb : ℂ) (e : ℂ) => fb * e)
        (List.zipWith (fun (fi : ℝ) (b : ℂ) => Complex.ofReal fi * b) f_i beta_i)
        eps_i).sum) /
    (1 - (f : ℂ) +
      (List.zipWith (fun (fi : ℝ) (b : ℂ) => Complex.ofReal fi * b) f_i beta_i).sum)

/-- The two mixing rules accepted by `diel_mixed.__init__`. -/
inductive MixingRule
  | bruggeman
  | maxwellGarnett

/-- The effective permittivity computed inside `diel_mixed.nk` for one
wavelength's constituent permittivities `eps`.  The mpmath `findroot`
call of the Bruggeman branch is an injected root-finder capability. -/
noncomputable def mix_eps (rule : MixingRule) (findroot : (ℂ → ℂ) → ℂ → ℂ)
    (abundances : List ℝ) (eps : List ℂ) : ℂ :=
  match rule with
  | MixingRule.bruggeman => findroot (bruggeman_sum abundances eps) ⟨0.5, 0.5⟩
  | MixingRule.maxwellGarnett => maxwellGarnett abundances eps

/-- `diel_mixed.nk(l)` over an array of wavelengths.  `eps_mean` starts
as `np.empty`, modelled by the arbitrary contents `init`; the loop body
fills entry `i` with the mixed permittivity — but the `sqrt` and the
`return` statement sit inside the wavelength loop, so the function
returns during the first iteration, with all later entries still holding
`init`'s square-rooted contents.  An empty wavelength array makes the
loop body never run, and Python falls off the end returning `None`. -/
noncomputable def diel_mixed_nk (rule : MixingRule) (findroot : (ℂ → ℂ) → ℂ → ℂ)
    (constituents : List (ℝ → ℝ × ℝ)) (abundances : List ℝ)
    (init : ℕ → ℂ) (l_arr : List ℝ) : Option (List ℝ × List ℝ) :=
  match l_arr with
  | [] => none
  | l0 :: _ =>
    let em : ℕ → ℂ := fun j =>
      if j = 0 then mix_eps rule findroot abundances (eps_at constituents l0)
      else init j
    let emS := (List.range l_arr.length).map fun j => csqrt (em j)
    some (emS.map Complex.re, emS.map Complex.im)

/-- Trapezoid sum over a list of `(value, node)` pairs:
`sum (y[i] + y[i+1]) / 2 * (x[i+1] - x[i])`. -/
noncomputable def trapzP : List (ℝ × ℝ) → ℝ
  | [] => 0
  | p :: t =>
    (match t with
     | [] => 0
     | q :: _ => (p.1 + q.1) / 2 * (q.2 - p.2)) + trapzP t

/-- `np.trapz(y, x=x)`: trapezoidal integration of samples `y` over
nodes `x` (equal lengths in every use in the source). -/
noncomputable def trapz (y x : List ℝ) : ℝ := trapzP (y.zip x)

/-- `powerlaw_N_of_a(a, a_max, q, rho_s)`: `N(a) = a**-q` up to the
cut-off `a_max` and zero beyond, divided by the trapezoidal integral of
`N(a) * m(a)` with `m(a) = 4 pi / 3 * rho_s * a**3`. -/
noncomputable def powerlaw_N_of_a (a : List ℝ) (a_max q rho_s : ℝ) : List ℝ :=
  let m := a.map fun x => 4 * Real.pi / 3 * rho_s * x ^ 3
  let dist := a.map fun x => x ^ (-q) * (if x ≤ a_max then (1:ℝ) else 0)
  dist.map (· / trapz (List.zipWith (· * ·) dist m) a)

/-- `gaussian_N_of_a(a, a_mean, sigma_a, rho_s)`: a Gaussian bump
normalized the same way as the power law. -/
noncomputable def gaussian_N_of_a (a : List ℝ) (a_mean sigma_a rho_s : ℝ) : List ℝ :=
  let m := a.map fun x => 4 * Real.pi / 3 * rho_s * x ^ 3
  let dist := a.map fun x => Real.exp (-((x - a_mean) ^ 2 / (2 * sigma_a ^ 2)))
  dist.map (· / trapz (List.zipWith (· * ·) dist m) a)

/-- `np.max` over a nonempty array (0 for the empty array, never used
on one in the source). -/
noncomputable def npMax : List ℝ → ℝ
  | [] => 0
  | x :: xs => xs.foldl max x

/-- `np.min` over a nonempty array. -/
noncomputable def npMin : List ℝ → ℝ
  | [] => 0
  | x :: xs => xs.foldl min x

/-- `np.logspace(a, b, num)`: `num` samples `10 ** (a + i * step)` with
`step = (b - a) / (num - 1)`. -/
noncomputable def logspace (a b : ℝ) (num : ℕ) : List ℝ :=
  (List.range num).map fun (i : ℕ) =>
    (10:ℝ) ^ (a + (i : ℝ) * ((b - a) / ((num : ℝ) - 1)))

/-- `diel_const.extrapolate_constants_up(lmin, lmax, n, kind)`: append
`np.logspace(log10(l[-1]), log10(lmax), n)[1:]` to the wavelength grid
with fitted `n`, `k` values, and recompute the stored bounds as the min
and max of the updated grid.  The scipy `curve_fit` model evaluation
(anchor `lmin`, `kind`) is abstracted into the injected value functions
`fn`, `fk`, which does not affect sample counts, the original samples,
or the wavelength bounds. -/
noncomputable def extrapolate_constants_up (d : DielConst) (lmax : ℝ) (num : ℕ)
    (fn fk : ℝ → ℝ) : DielConst :=
  let l_ext := (logspace (log10R (d.l.getLastD 0)) (log10R lmax) num).tail
  let l' := d.l ++ l_ext
  let n' := d.n ++ l_ext.map fn
  let k' := d.k ++ l_ext.map fk
  { l := l', n := n', k := k'
    ll := l'.map log10R, ln := n'.map log10R, lk := k'.map log10R
    lmin := npMin l', lmax := npMax l'
    has_negative_n := d.has_negative_n }

/-- `diel_const.extrapolate_constants_down(lmin, lmax, n, kind)`: prepend
`np.logspace(log10(lmin), log10(l[0]), n)[:-1]` to the wavelength grid,
mirroring `extrapolate_constants_up`. -/
noncomputable def extrapolate_constants_down (d : DielConst) (lmin : ℝ) (num : ℕ)
    (fn fk : ℝ → ℝ) : DielConst :=
  let l_ext := (logspace (log10R lmin) (log10R (d.l.headD 0)) num).dropLast
  let l' := l_ext ++ d.l
  let n' := l_ext.map fn ++ d.n
  let k' := l_ext.map fk ++ d.k
  { l := l', n := n', k := k'
    ll := l'.map log10R, ln := n'.map log10R, lk := k'.map log10R
    lmin := npMin l', lmax := npMax l'
    has_negative_n := d.has_negative_n }

/-- Size parameter `x = 2 pi / lam * a` (`get_mie_coefficients`). -/
noncomputable def sizeParam (lam a : ℝ) : ℝ := 2 * Real.pi / lam * a

/-- `Xstop = X + 4 * X**.333333 + 2.0` (Wiscombe's criterion as coded in
`get_mie_coefficients`). -/
noncomputable def xstopF (x : ℝ) : ℝ := x + 4 * x ^ (0.333333 : ℝ) + 2

/-- numpy's `astype(int)`: truncation toward zero. -/
noncomputable def astypeInt (r : ℝ) : ℤ := if 0 ≤ r then ⌊r⌋ else ⌈r⌉

/-- The recursion-order bound
`nmx = np.maximum(Xstop, abs(X * (n + k * 1j))).astype(int) + 15`. -/
noncomputable def nmxF (nr kr x : ℝ) : ℤ :=
  astypeInt (max (xstopF x) (Complex.abs ((x : ℂ) * ((nr : ℂ) + (kr : ℂ) * Complex.I)))) + 15

/-- The convergence mask `nmx < NMXX` with `NMXX = 200000`. -/
noncomputable def maskB (nr kr x : ℝ) : Bool := decide (nmxF nr kr x < 200000)

/-- The list `X_cut` of size parameters actually handed to the Mie
kernel for one wavelength: the masked sizes when extrapolation is on,
all of them when it is off, and the fsolve boundary size parameter `xb`
(an injected scipy result) when nothing converges. -/
noncomputable def xcutList (extrap : Bool) (xb nr kr : ℝ) (X : List ℝ) : List ℝ :=
  let c := if extrap then X.filter (maskB nr kr) else X
  if c.isEmpty then [xb] else c

/-- The tuple returned by the injected `bhmie_function`:
`S1, S2, Qext, Qabs, Qsca, Qback, gsca`. -/
structure MieOut where
  S1 : List ℂ
  S2 : List ℂ
  Qext : ℝ
  Qabs : ℝ
  Qsca : ℝ
  Qback : ℝ
  gsca : ℂ

/-- Row `i` of the per-wavelength output columns of
`get_mie_coefficients` given the size-parameter list `X` and the cut
list `c` handed to the Mie kernel: rows up to `len(c) - 1` are filled
by the Mie loop; all later rows receive the last computed `q_abs`,
`q_sca` and the Laor & Draine 1993 asymptote for `g` at that row's own
size parameter. -/
noncomputable def mieRowOf (bhmie : ℝ → MieOut) (X c : List ℝ) (i : ℕ) : ℝ × ℝ × ℝ :=
  if h : i < c.length then
    let r := bhmie (c.get ⟨i, h⟩)
    (r.Qabs, r.Qsca, r.gsca.re)
  else
    let r := bhmie (c.getLastD 0)
    (r.Qabs, r.Qsca, 0.3 * (X.getD i 0) ^ 2 / (1 + 0.3 * (X.getD i 0) ^ 2))

/-- Row `i` of the per-wavelength output columns of
`get_mie_coefficients`: `(q_abs[i], q_sca[i], g_sca[i])` for the size
grid `A` at wavelength `lam` with refractive index `nr + i kr`. -/
noncomputable def mieRow (bhmie : ℝ → MieOut) (xb : ℝ) (extrap : Bool)
    (nr kr lam : ℝ) (A : List ℝ) (i : ℕ) : ℝ × ℝ × ℝ :=
  mieRowOf bhmie (A.map (sizeParam lam))
    (xcutList extrap xb nr kr (A.map (sizeParam lam))) i

/-- The cost warning in `get_mie_coefficients`: issued when the float
recursion-order estimate at the largest size parameter exceeds `2e5`
and extrapolation is disabled. -/
noncomputable def mieWarn (extrap : Bool) (A LAM : List ℝ) : Bool :=
  decide ((200000 : ℝ) < xstopF (2 * Real.pi / npMin LAM * npMax A) + 15) && !extrap

/-- The geometry factor `(lam / (2 pi))**2 / m` of
`calculate_mueller_matrix`. -/
noncomputable def mueller_factor (lam m : List ℝ) (im il : ℕ) : ℝ :=
  (lam.getD il 0 / (2 * Real.pi)) ^ 2 / m.getD im 0

/-- `calculate_mueller_matrix(lam, m, S1, S2)`: the six `zscat` entries
at grain index `im`, wavelength index `il` and angle index `iang`.
The `(nm, nlam, nang)`-shaped amplitude arrays are modelled as index
functions. -/
noncomputable def calculate_mueller_matrix (lam m : List ℝ)
    (S1 S2 : ℕ → ℕ → ℕ → ℂ) (im il iang : ℕ) (j : Fin 6) : ℝ :=
  let f := mueller_factor lam m im il
  let s11 := 0.5 * (Complex.abs (S2 im il iang) ^ 2 + Complex.abs (S1 im il iang) ^ 2)
  let s12 := 0.5 * (Complex.abs (S2 im il iang) ^ 2 - Complex.abs (S1 im il iang) ^ 2)
  let s33 := (S2 im il iang * (starRingEnd ℂ) (S1 im il iang)).re
  let s34 := (S2 im il iang * (starRingEnd ℂ) (S1 im il iang)).im
  [s11 * f, s12 * f, s11 * f, s33 * f, s34 * f, s33 * f].getD (j : ℕ) 0

/-- `get_kappa_from_q(a, m, q_abs, q_sca)`: scale each size's row of
efficiencies by `pi a**2 / m`. -/
noncomputable def get_kappa_from_q (a m : List ℝ) (q_abs q_sca : List (List ℝ)) :
    List (List ℝ) × List (List ℝ) :=
  let coef := List.zipWith (fun ai mi => Real.pi * ai ^ 2 / mi) a m
  (List.zipWith (fun c row => row.map (c * ·)) coef q_abs,
   List.zipWith (fun c row => row.map (c * ·)) coef q_sca)

/-- `get_size_averaged_opacity(a, lam, n, rho_s, diel_const, q_abs,
q_sca, k_abs, k_sca)`.  The first statement of the body is
`assert (diel_const is not None)`, so a missing dielectric-constants
object always raises before anything else is examined.  In the branch
that computes Mie coefficients from scratch, and in the branch where
`k_abs`, `k_sca` are supplied, `kappa_abs` is never assigned, which
surfaces as a `NameError` once the averaging loop runs (an empty
wavelength grid skips the loop and returns empty arrays). -/
noncomputable def get_size_averaged_opacity (a lam n : List ℝ) (rho_s : ℝ)
    (dielc : Option DielConst)
    (q_abs q_sca k_abs k_sca : Option (List (List ℝ))) :
    Except String (List ℝ × List ℝ) :=
  if dielc.isNone then Except.error "diel_const needs to be "
  else
    let m := a.map fun x => 4 * Real.pi / 3 * rho_s * x ^ 3
    let sig0 := List.zipWith (· * ·) (List.zipWith (· * ·) n m) a
    let sig := sig0.map (· / sig0.sum)
    let kappa : Option (List (List ℝ) × List (List ℝ)) :=
      if (q_abs.isNone || q_sca.isNone) && (k_abs.isNone || k_sca.isNone) then
        none
      else if k_abs.isNone || k_sca.isNone then
        some (get_kappa_from_q a m (q_abs.getD []) (q_sca.getD []))
      else none
    match kappa with
    | some (ka, ks) =>
      Except.ok
        ((List.range lam.length).map fun i =>
            (List.zipWith (fun row s => row.getD i 0 * s) ka sig).sum,
         (List.range lam.length).map fun i =>
            (List.zipWith (fun row s => row.getD i 0 * s) ks sig).sum)
    | none =>
      if lam.isEmpty then Except.ok ([], [])
      else Except.error "NameError: kappa_abs"

end DsharpOpac

namespace DsharpOpac

/-- C2: a scalar query wavelength strictly below the stored minimum or
strictly above the stored maximum makes `diel_const.nk` raise the
out-of-range error; no value is returned. -/
theorem diel_const_nk_out_of_range (d : DielConst) (l : ℝ)
    (h : l < d.lmin ∨ d.lmax < l) :
    diel_const_nk d l = Except.error "wavelength outside data-range" := by
  unfold diel_const_nk
  simp [h]

/-- Witness for C2 at a concrete spectrum and query. -/
theorem diel_const_nk_out_of_range_witness :
    ((3:ℝ) < (diel_const_mk [1, 2] [1, 1] [1, 1]).lmin ∨
      (diel_const_mk [1, 2] [1, 1] [1, 1]).lmax < 3) ∧
    diel_const_nk (diel_const_mk [1, 2] [1, 1] [1, 1]) 3 =
      Except.error "wavelength outside data-range" := by
  have h : (3:ℝ) < (diel_const_mk [1, 2] [1, 1] [1, 1]).lmin ∨
      (diel_const_mk [1, 2] [1, 1] [1, 1]).lmax < 3 := by
    right
    norm_num [diel_const_mk]
  exact ⟨h, diel_const_nk_out_of_range _ _ h⟩

/-- C3: inside the stored range, `diel_const.nk` returns exactly the
spec's interpolation contract: log-log interpolation of both `n` and
`k`, except that when some tabulated `n ≤ 0` exists and the
linear-in-wavelength estimate of `n` at the query is negative, `n` is
interpolated linearly; `k` is interpolated in log space in every case. -/
theorem diel_const_nk_interpolation_spec (lam ns ks : List ℝ) (l : ℝ)
    (h1 : (diel_const_mk lam ns ks).lmin ≤ l)
    (h2 : l ≤ (diel_const_mk lam ns ks).lmax) :
    diel_const_nk (diel_const_mk lam ns ks) l =
      Except.ok (nk_spec (diel_const_mk lam ns ks) l) := by
  unfold diel_const_nk nk_spec
  have hguard : ¬ (l < (diel_const_mk lam ns ks).lmin ∨
      (diel_const_mk lam ns ks).lmax < l) := by
    push_neg
    exact ⟨h1, h2⟩
  simp only [hguard, if_false]
  by_cases hc : (∃ x ∈ ns, x ≤ 0) ∧ interpL l lam ns < 0
  · simp [diel_const_mk, hc]
  · simp [diel_const_mk, hc]

/-- Witness for C3 at a concrete in-range query. -/
theorem diel_const_nk_interpolation_spec_witness :
    ((diel_const_mk [1, 10] [2, 4] [1, 1]).lmin ≤ (1:ℝ) ∧
      (1:ℝ) ≤ (diel_const_mk [1, 10] [2, 4] [1, 1]).lmax) ∧
    diel_const_nk (diel_const_mk [1, 10] [2, 4] [1, 1]) 1 =
      Except.ok (nk_spec (diel_const_mk [1, 10] [2, 4] [1, 1]) 1) := by
  have h1 : (diel_const_mk [1, 10] [2, 4] [1, 1]).lmin ≤ (1:ℝ) := by
    norm_num [diel_const_mk]
  have h2 : (1:ℝ) ≤ (diel_const_mk [1, 10] [2, 4] [1, 1]).lmax := by
    norm_num [diel_const_mk]
  exact ⟨⟨h1, h2⟩, diel_const_nk_interpolation_spec _ _ _ _ h1 h2⟩

/-- C10: `get_size_averaged_opacity` fails with the assertion message as
soon as `diel_const` is `None`, whatever precomputed `q` or `k` arrays
are supplied. -/
theorem size_averaged_opacity_requires_diel_const
    (a lam n : List ℝ) (rho_s : ℝ)
    (q_abs q_sca k_abs k_sca : Option (List (List ℝ))) :
    get_size_averaged_opacity a lam n rho_s none q_abs q_sca k_abs k_sca =
      Except.error "diel_const needs to be " := rfl

/-- C7: each of the six Mueller matrix entries per angle equals the spec
formula `[S11, S12, S11, S33, S34, S33]` scaled by
`(lam / (2 pi))**2 / m`. -/
theorem mueller_matrix_entries (lam m : List ℝ) (S1 S2 : ℕ → ℕ → ℕ → ℂ)
    (im il iang : ℕ) :
    calculate_mueller_matrix lam m S1 S2 im il iang 0 =
      0.5 * (Complex.abs (S2 im il iang) ^ 2 + Complex.abs (S1 im il iang) ^ 2) *
        ((lam.getD il 0 / (2 * Real.pi)) ^ 2 / m.getD im 0) ∧
    calculate_mueller_matrix lam m S1 S2 im il iang 1 =
      0.5 * (Complex.abs (S2 im il iang) ^ 2 - Complex.abs (S1 im il iang) ^ 2) *
        ((lam.getD il 0 / (2 * Real.pi)) ^ 2 / m.getD im 0) ∧
    calculate_mueller_matrix lam m S1 S2 im il iang 2 =
      calculate_mueller_matrix lam m S1 S2 im il iang 0 ∧
    calculate_mueller_matrix lam m S1 S2 im il iang 3 =
      (S2 im il iang * (starRingEnd ℂ) (S1 im il iang)).re *
        ((lam.getD il 0 / (2 * Real.pi)) ^ 2 / m.getD im 0) ∧
    calculate_mueller_matrix lam m S1 S2 im il iang 4 =
      (S2 im il iang * (starRingEnd ℂ) (S1 im il iang)).im *
        ((lam.getD il 0 / (2 * Real.pi)) ^ 2 / m.getD im 0) ∧
    calculate_mueller_matrix lam m S1 S2 im il iang 5 =
      calculate_mueller_matrix lam m S1 S2 im il iang 3 :=
  ⟨rfl, rfl, rfl, rfl, rfl, rfl⟩

/-- The principal complex square root undoes squaring on the closed
right half plane met by refractive indices (`n > 0`, `k ≥ 0`). -/
theorem csqrt_sq (nv kv : ℝ) (hn : 0 < nv) (hk : 0 ≤ kv) :
    csqrt (((nv : ℂ) + (kv : ℂ) * Complex.I) ^ 2) = (nv : ℂ) + (kv : ℂ) * Complex.I := by
  have habs : Complex.abs (((nv : ℂ) + (kv : ℂ) * Complex.I) ^ 2) = nv ^ 2 + kv ^ 2 := by
    rw [map_pow, Complex.sq_abs, Complex.normSq_add_mul_I]
  have hre : ((((nv : ℂ) + (kv : ℂ) * Complex.I)) ^ 2).re = nv ^ 2 - kv ^ 2 := by
    simp [pow_two, Complex.mul_re, Complex.add_re, Complex.add_im, Complex.mul_im]
    try ring
  have him : ((((nv : ℂ) + (kv : ℂ) * Complex.I)) ^ 2).im = 2 * nv * kv := by
    simp [pow_two, Complex.mul_re, Complex.add_re, Complex.add_im, Complex.mul_im]
    try ring
  unfold csqrt
  rw [habs, hre, him]
  have h1 : (nv ^ 2 + kv ^ 2 + (nv ^ 2 - kv ^ 2)) / 2 = nv ^ 2 := by ring
  have h2 : (nv ^ 2 + kv ^ 2 - (nv ^ 2 - kv ^ 2)) / 2 = kv ^ 2 := by ring
  have hnn : ¬ (2 * nv * kv < 0) := by
    have : 0 ≤ 2 * nv * kv := by positivity
    linarith
  rw [h1, h2, if_neg hnn, Real.sqrt_sq hn.le, Real.sqrt_sq hk, one_mul]

/-- C5: mixing two identical constituents 50/50 under Maxwell-Garnett
with component 0 as host reproduces the single material's permittivity
`eps = (n + i k)**2`, and `diel_mixed.nk` hands back the constituent's
`(n, k)`. -/
theorem maxwell_garnett_identical_mix (nv kv l : ℝ) (hn : 0 < nv) (hk : 0 ≤ kv)
    (findroot : (ℂ → ℂ) → ℂ → ℂ) (init : ℕ → ℂ) :
    maxwellGarnett [1/2, 1/2] (eps_at [fun _ => (nv, kv), fun _ => (nv, kv)] l) =
      ((nv : ℂ) + (kv : ℂ) * Complex.I) ^ 2 ∧
    diel_mixed_nk MixingRule.maxwellGarnett findroot
        [fun _ => (nv, kv), fun _ => (nv, kv)] [1/2, 1/2] init [l] =
      some ([nv], [kv]) := by
  have hz : ((nv : ℂ) + (kv : ℂ) * Complex.I) ≠ 0 := by
    intro hc
    have := congrArg Complex.re hc
    simp at this
    exact hn.ne' this
  have he : ((nv : ℂ) + (kv : ℂ) * Complex.I) ^ 2 ≠ 0 := pow_ne_zero _ hz
  have h3 : (3 : ℂ) * (((nv : ℂ) + (kv : ℂ) * Complex.I) ^ 2) ≠ 0 :=
    mul_ne_zero (by norm_num) he
  have hmg : maxwellGarnett [1/2, 1/2]
      (eps_at [fun _ => (nv, kv), fun _ => (nv, kv)] l) =
      ((nv : ℂ) + (kv : ℂ) * Complex.I) ^ 2 := by
    unfold maxwellGarnett eps_at
    simp only [List.map_cons, List.map_nil, List.headD_cons, List.tail_cons,
      List.zipWith_cons_cons, List.zipWith_nil_right, List.sum_cons,
      List.sum_nil, add_zero]
    rw [show (3 : ℂ) * (((nv : ℂ) + (kv : ℂ) * Complex.I) ^ 2) /
        ((((nv : ℂ) + (kv : ℂ) * Complex.I) ^ 2) +
          2 * (((nv : ℂ) + (kv : ℂ) * Complex.I) ^ 2)) = 1 from by
      rw [show (((nv : ℂ) + (kv : ℂ) * Complex.I) ^ 2) +
          2 * (((nv : ℂ) + (kv : ℂ) * Complex.I) ^ 2) =
          3 * (((nv : ℂ) + (kv : ℂ) * Complex.I) ^ 2) by ring]
      exact div_self h3]
    norm_num
    ring
  refine ⟨hmg, ?_⟩
  unfold diel_mixed_nk
  simp only [mix_eps, List.length_cons, List.length_nil, List.range_succ,
    List.range_zero, List.nil_append, List.map_cons, List.map_nil,
    if_pos rfl, if_true]
  rw [hmg, csqrt_sq nv kv hn hk]
  simp

/-- Witness for C5 at `n = 1`, `k = 0`. -/
theorem maxwell_garnett_identical_mix_witness :
    (0 : ℝ) < 1 ∧ (0 : ℝ) ≤ 0 ∧
    maxwellGarnett [1/2, 1/2] (eps_at [fun _ => ((1:ℝ), (0:ℝ)), fun _ => ((1:ℝ), (0:ℝ))] 0) =
      ((1 : ℂ) + (0 : ℂ) * Complex.I) ^ 2 :=
  ⟨by norm_num, le_refl 0,
    (maxwell_garnett_identical_mix 1 0 0 (by norm_num) (le_refl 0)
      (fun _ _ => 0) (fun _ => 0)).1⟩

/-- C6: when the Bruggeman equation is posed for a single constituent
with volume fraction 1, any root handed back by the injected complex
root finder whose denominator `eps_1 + 2 x` does not vanish is exactly
`eps_1 = (n_1 + i k_1)**2`, so `diel_mixed.nk`'s effective permittivity
equals the constituent's permittivity. -/
theorem bruggeman_single_constituent (nv kv l : ℝ)
    (findroot : (ℂ → ℂ) → ℂ → ℂ)
    (hroot : bruggeman_sum [1] (eps_at [fun _ => (nv, kv)] l)
        (findroot (bruggeman_sum [1] (eps_at [fun _ => (nv, kv)] l)) ⟨0.5, 0.5⟩) = 0)
    (hden : ((nv : ℂ) + (kv : ℂ) * Complex.I) ^ 2 +
        2 * findroot (bruggeman_sum [1] (eps_at [fun _ => (nv, kv)] l)) ⟨0.5, 0.5⟩ ≠ 0) :
    mix_eps MixingRule.bruggeman findroot [1] (eps_at [fun _ => (nv, kv)] l) =
      ((nv : ℂ) + (kv : ℂ) * Complex.I) ^ 2 := by
  set r := findroot (bruggeman_sum [1] (eps_at [fun _ => (nv, kv)] l)) ⟨0.5, 0.5⟩ with hr
  have hsum : bruggeman_sum [1] (eps_at [fun _ => (nv, kv)] l) r = 0 := hroot
  unfold bruggeman_sum eps_at at hsum
  simp only [List.map_cons, List.map_nil, List.zipWith_cons_cons,
    List.zipWith_nil_right, List.sum_cons, List.sum_nil, add_zero,
    Complex.ofReal_one, one_mul] at hsum
  have hnum : (((nv : ℂ) + (kv : ℂ) * Complex.I) ^ 2 - r) = 0 := by
    rcases div_eq_zero_iff.mp hsum with h | h
    · exact h
    · exact absurd h hden
  have hre : r = ((nv : ℂ) + (kv : ℂ) * Complex.I) ^ 2 :=
    (sub_eq_zero.mp hnum).symm
  simpa [mix_eps] using hre

/-- Witness for C6: an exact root finder on `eps_1 = 4`. -/
theorem bruggeman_single_constituent_witness :
    bruggeman_sum [1] (eps_at [fun _ => ((2:ℝ), (0:ℝ))] 0)
        ((fun (_ : ℂ → ℂ) (_ : ℂ) => (4:ℂ)) (bruggeman_sum [1] (eps_at [fun _ => ((2:ℝ), (0:ℝ))] 0)) ⟨0.5, 0.5⟩) = 0 ∧
    ((2 : ℂ) + (0 : ℂ) * Complex.I) ^ 2 +
        2 * (fun (_ : ℂ → ℂ) (_ : ℂ) => (4:ℂ)) (bruggeman_sum [1] (eps_at [fun _ => ((2:ℝ), (0:ℝ))] 0)) ⟨0.5, 0.5⟩ ≠ 0 ∧
    mix_eps MixingRule.bruggeman (fun _ _ => (4:ℂ)) [1] (eps_at [fun _ => ((2:ℝ), (0:ℝ))] 0) =
      ((2 : ℂ) + (0 : ℂ) * Complex.I) ^ 2 := by
  have hroot : bruggeman_sum [1] (eps_at [fun _ => ((2:ℝ), (0:ℝ))] 0) (4:ℂ) = 0 := by
    unfold bruggeman_sum eps_at
    norm_num
  have hden : ((2 : ℂ) + (0 : ℂ) * Complex.I) ^ 2 + 2 * (4:ℂ) ≠ 0 := by
    norm_num
  exact ⟨hroot, hden, bruggeman_single_constituent 2 0 0 (fun _ _ => (4:ℂ)) hroot hden⟩

/-- The accumulator bounds a max-fold from below. -/
theorem le_foldl_max : ∀ (l : List ℝ) (acc : ℝ), acc ≤ l.foldl max acc
  | [], _ => le_refl _
  | x :: t, acc => le_trans (le_max_left acc x) (le_foldl_max t (max acc x))

/-- A max-fold stays below any common upper bound. -/
theorem foldl_max_le_of : ∀ (l : List ℝ) (acc c : ℝ),
    acc ≤ c → (∀ y ∈ l, y ≤ c) → l.foldl max acc ≤ c
  | [], _, _, hacc, _ => hacc
  | x :: t, acc, c, hacc, hl =>
    foldl_max_le_of t (max acc x) c
      (max_le hacc (hl x (List.mem_cons_self x t)))
      fun y hy => hl y (List.mem_cons_of_mem x hy)

/-- Every member of a list bounds its max-fold from below. -/
theorem mem_le_foldl_max : ∀ (l : List ℝ) (acc : ℝ), ∀ y ∈ l, y ≤ l.foldl max acc
  | x :: t, acc, y, hy => by
    rcases List.mem_cons.mp hy with rfl | hy
    · exact le_trans (le_max_right acc y) (le_foldl_max t (max acc y))
    · exact mem_le_foldl_max t (max acc x) y hy

/-- Members of a list are at most its `np.max`. -/
theorem le_npMax_of_mem {l : List ℝ} {y : ℝ} (h : y ∈ l) : y ≤ npMax l := by
  cases l with
  | nil => cases h
  | cons x t =>
    rcases List.mem_cons.mp h with rfl | h
    · exact le_foldl_max t y
    · exact mem_le_foldl_max t x y h

/-- `np.max` realizes any simultaneously attained upper bound. -/
theorem npMax_eq_of {l : List ℝ} {c : ℝ} (hmem : c ∈ l)
    (hub : ∀ y ∈ l, y ≤ c) : npMax l = c := by
  refine le_antisymm ?_ (le_npMax_of_mem hmem)
  cases l with
  | nil => cases hmem
  | cons x t =>
    exact foldl_max_le_of t x c (hub x (List.mem_cons_self x t))
      fun y hy => hub y (List.mem_cons_of_mem x hy)

/-- The accumulator bounds a min-fold from above. -/
theorem foldl_min_le : ∀ (l : List ℝ) (acc : ℝ), l.foldl min acc ≤ acc
  | [], _ => le_refl _
  | x :: t, acc => le_trans (foldl_min_le t (min acc x)) (min_le_left acc x)

/-- A min-fold stays above any common lower bound. -/
theorem le_foldl_min_of : ∀ (l : List ℝ) (acc c : ℝ),
    c ≤ acc → (∀ y ∈ l, c ≤ y) → c ≤ l.foldl min acc
  | [], _, _, hacc, _ => hacc
  | x :: t, acc, c, hacc, hl =>
    le_foldl_min_of t (min acc x) c
      (le_min hacc (hl x (List.mem_cons_self x t)))
      fun y hy => hl y (List.mem_cons_of_mem x hy)

/-- Every member of a list bounds its min-fold from above. -/
theorem foldl_min_le_mem : ∀ (l : List ℝ) (acc : ℝ), ∀ y ∈ l, l.foldl min acc ≤ y
  | x :: t, acc, y, hy => by
    rcases List.mem_cons.mp hy with rfl | hy
    · exact le_trans (foldl_min_le t (min acc y)) (min_le_right acc y)
    · exact foldl_min_le_mem t (min acc x) y hy

/-- `np.min` is at most any member of the list. -/
theorem npMin_le_of_mem {l : List ℝ} {y : ℝ} (h : y ∈ l) : npMin l ≤ y := by
  cases l with
  | nil => cases h
  | cons x t =>
    rcases List.mem_cons.mp h with rfl | h
    · exact foldl_min_le t y
    · exact foldl_min_le_mem t x y h

/-- `np.min` realizes any simultaneously attained lower bound. -/
theorem npMin_eq_of {l : List ℝ} {c : ℝ} (hmem : c ∈ l)
    (hlb : ∀ y ∈ l, c ≤ y) : npMin l = c := by
  refine le_antisymm (npMin_le_of_mem hmem) ?_
  cases l with
  | nil => cases hmem
  | cons x t =>
    exact le_foldl_min_of t x c (hlb x (List.mem_cons_self x t))
      fun y hy => hlb y (List.mem_cons_of_mem x hy)

/-- The head bounds a sorted list from below. -/
theorem sorted_headD_le {l : List ℝ} (hs : l.Sorted (· ≤ ·)) (dflt : ℝ) :
    ∀ x ∈ l, l.headD dflt ≤ x := by
  cases l with
  | nil => intro x hx; cases hx
  | cons a t =>
    intro x hx
    rcases List.mem_cons.mp hx with rfl | hx
    · exact le_refl x
    · exact (List.sorted_cons.mp hs).1 x hx

/-- The last element bounds a sorted list from above. -/
theorem sorted_le_getLastD : ∀ (l : List ℝ) (dflt : ℝ), l.Sorted (· ≤ ·) →
    ∀ x ∈ l, x ≤ l.getLastD dflt
  | [], _, _, x, hx => by cases hx
  | [a], dflt, _, x, hx => by
    rcases List.mem_cons.mp hx with rfl | hx
    · simp
    · cases hx
  | a :: b :: t, dflt, hs, x, hx => by
    rw [List.getLastD_cons]
    have hs2 := (List.sorted_cons.mp hs).2
    rcases List.mem_cons.mp hx with rfl | hx
    · have hab : x ≤ b := (List.sorted_cons.mp hs).1 b (List.mem_cons_self b t)
      exact le_trans hab
        (sorted_le_getLastD (b :: t) x hs2 b (List.mem_cons_self b t))
    · exact sorted_le_getLastD (b :: t) x hs2 x hx

/-- The `getLastD` of a nonempty list is a member. -/
theorem getLastD_mem : ∀ (l : List ℝ) (dflt : ℝ), l ≠ [] → l.getLastD dflt ∈ l
  | [], _, h => absurd rfl h
  | [a], dflt, _ => by simp
  | a :: b :: t, dflt, _ => by
    rw [List.getLastD_cons]
    exact List.mem_cons_of_mem a (getLastD_mem (b :: t) a (by simp))

/-- The `headD` of a nonempty list is a member. -/
theorem headD_mem : ∀ (l : List ℝ) (dflt : ℝ), l ≠ [] → l.headD dflt ∈ l
  | [], _, h => absurd rfl h
  | a :: t, _, _ => List.mem_cons_self a t

/-- Zipping two maps over the same list combines pointwise. -/
theorem zipWith_map_same {α β γ δ : Type} (f : α → β) (g : α → γ) (h : β → γ → δ) :
    ∀ l : List α, List.zipWith h (l.map f) (l.map g) = l.map fun x => h (f x) (g x)
  | [] => rfl
  | x :: t => by simp [zipWith_map_same f g h t]

/-- Zipping a map over a list with the list itself pairs pointwise. -/
theorem zip_map_same {α β : Type} (F : α → β) :
    ∀ l : List α, (l.map F).zip l = l.map fun x => (F x, x)
  | [] => rfl
  | x :: t => by
    have ih := zip_map_same F t
    simp only [List.map_cons, List.zip_cons_cons, ih]

/-- A trapezoid sum over nondecreasing nodes with nonnegative values is
nonnegative. -/
theorem trapzP_nonneg :
    ∀ l : List (ℝ × ℝ), List.Chain' (fun p q => p.2 ≤ q.2) l →
      (∀ p ∈ l, 0 ≤ p.1) → 0 ≤ trapzP l
  | [], _, _ => le_refl 0
  | [p], _, _ => by simp [trapzP]
  | p :: q :: t, hchain, hnn => by
    have hpq : p.2 ≤ q.2 := (List.chain'_cons.mp hchain).1
    have hrec : 0 ≤ trapzP (q :: t) :=
      trapzP_nonneg (q :: t) (List.chain'_cons.mp hchain).2
        (fun u hu => hnn u (List.mem_cons_of_mem p hu))
    have hhead : 0 ≤ (p.1 + q.1) / 2 * (q.2 - p.2) := by
      have h1 : 0 ≤ p.1 := hnn p (List.mem_cons_self p _)
      have h2 : 0 ≤ q.1 := hnn q (List.mem_cons_of_mem p (List.mem_cons_self q _))
      have := sub_nonneg.mpr hpq
      positivity
    show 0 ≤ (p.1 + q.1) / 2 * (q.2 - p.2) + trapzP (q :: t)
    linarith

/-- A trapezoid sum over strictly increasing nodes with nonnegative
values and a positive first value is positive. -/
theorem trapzP_pos (p q : ℝ × ℝ) (t : List (ℝ × ℝ))
    (hchain : List.Chain' (fun u v => u.2 < v.2) (p :: q :: t))
    (hnn : ∀ u ∈ p :: q :: t, 0 ≤ u.1) (hp : 0 < p.1) :
    0 < trapzP (p :: q :: t) := by
  have hpq : p.2 < q.2 := (List.chain'_cons.mp hchain).1
  have hrec : 0 ≤ trapzP (q :: t) :=
    trapzP_nonneg (q :: t)
      ((List.chain'_cons.mp hchain).2.imp fun _ _ h => le_of_lt h)
      fun u hu => hnn u (List.mem_cons_of_mem p hu)
  have hq : 0 ≤ q.1 := hnn q (List.mem_cons_of_mem p (List.mem_cons_self q _))
  have hhead : 0 < (p.1 + q.1) / 2 * (q.2 - p.2) := by
    have := sub_pos.mpr hpq
    positivity
  show 0 < (p.1 + q.1) / 2 * (q.2 - p.2) + trapzP (q :: t)
  linarith

/-- Dividing every trapezoid value by a constant divides the sum. -/
theorem trapzP_map_fst_div (c : ℝ) :
    ∀ l : List (ℝ × ℝ), trapzP (l.map fun p => (p.1 / c, p.2)) = trapzP l / c
  | [] => by simp [trapzP]
  | [p] => by simp [trapzP]
  | p :: q :: t => by
    have ih := trapzP_map_fst_div c (q :: t)
    show (p.1 / c + q.1 / c) / 2 * (q.2 - p.2) +
        trapzP ((q :: t).map fun p => (p.1 / c, p.2)) =
      ((p.1 + q.1) / 2 * (q.2 - p.2) + trapzP (q :: t)) / c
    rw [ih]
    rcases eq_or_ne c 0 with rfl | hc
    · simp
    · field_simp
      ring

/-- A weight profile scaled by the trapezoidal integral of
`weight * mass` over a strictly increasing grid integrates to exactly 1,
as long as the first weighted mass is positive and none is negative. -/
theorem trapz_norm_one (w mF : ℝ → ℝ) (a0 a1 : ℝ) (t : List ℝ)
    (hchain : List.Chain' (· < ·) (a0 :: a1 :: t))
    (hnn : ∀ x ∈ a0 :: a1 :: t, 0 ≤ w x * mF x)
    (hhead : 0 < w a0 * mF a0) :
    trapz (List.zipWith (· * ·)
        (((a0 :: a1 :: t).map w).map
          (· / trapz (List.zipWith (· * ·) ((a0 :: a1 :: t).map w)
              ((a0 :: a1 :: t).map mF)) (a0 :: a1 :: t)))
        ((a0 :: a1 :: t).map mF)) (a0 :: a1 :: t) = 1 := by
  set a := a0 :: a1 :: t with ha
  have hpairs :
      ∀ F : ℝ → ℝ, (List.zipWith (· * ·) (a.map F) (a.map mF)).zip a =
        a.map fun x => (F x * mF x, x) := by
    intro F
    rw [zipWith_map_same F mF (· * ·) a]
    exact zip_map_same _ a
  have hT : trapz (List.zipWith (· * ·) (a.map w) (a.map mF)) a =
      trapzP (a.map fun x => (w x * mF x, x)) := by
    unfold trapz
    rw [hpairs w]
  set T := trapz (List.zipWith (· * ·) (a.map w) (a.map mF)) a with hTdef
  have hmapdiv : (a.map w).map (· / T) = a.map fun x => w x / T := by
    rw [List.map_map]
    rfl
  have hzip : (List.zipWith (· * ·) ((a.map w).map (· / T)) (a.map mF)).zip a =
      (a.map fun x => (w x * mF x, x)).map fun p => (p.1 / T, p.2) := by
    rw [hmapdiv, zipWith_map_same _ mF (· * ·) a, zip_map_same _ a,
      List.map_map]
    congr 1
    funext x
    simp [div_mul_eq_mul_div]
  have hchain2 : List.Chain' (fun u v : ℝ × ℝ => u.2 < v.2)
      (a.map fun x => (w x * mF x, x)) := by
    rw [List.chain'_map]
    exact hchain
  have hnn2 : ∀ u ∈ a.map fun x => (w x * mF x, x), 0 ≤ u.1 := by
    intro u hu
    rw [List.mem_map] at hu
    obtain ⟨x, hx, rfl⟩ := hu
    exact hnn x hx
  have hTpos : 0 < trapzP (a.map fun x => (w x * mF x, x)) := by
    have hform : a.map (fun x => (w x * mF x, x)) =
        (w a0 * mF a0, a0) :: (w a1 * mF a1, a1) ::
          (t.map fun x => (w x * mF x, x)) := by
      rw [ha]
      simp
    rw [hform] at hchain2 hnn2 ⊢
    exact trapzP_pos _ _ _ hchain2 hnn2 hhead
  unfold trapz
  rw [hzip, trapzP_map_fst_div, ← hT]
  exact div_self (by rw [hT]; exact hTpos.ne')

/-- C4 counterexample: on the strictly increasing positive grid
`[1, 2]` with cut-off `a_max = 1/2` below the whole grid (and `q = 0`,
`rho_s = 1`), every power-law weight is zero, the normalizing integral
vanishes, and the claimed mass normalization fails. -/
theorem size_distribution_normalization_cex :
    trapz (List.zipWith (· * ·)
        (powerlaw_N_of_a [1, 2] (1/2) 0 1)
        ([(1:ℝ), 2].map fun x => 4 * Real.pi / 3 * 1 * x ^ 3)) [(1:ℝ), 2] ≠ 1 := by
  have h1 : ¬ ((1:ℝ) ≤ 2⁻¹) := by norm_num
  have h2 : ¬ ((2:ℝ) ≤ 2⁻¹) := by norm_num
  simp [powerlaw_N_of_a, trapz, trapzP, List.zip, h1, h2]

/-- C4 amended: on every strictly increasing positive size grid with at
least two points, the power-law and Gaussian distributions integrate to
1 gram of mass by trapezoidal quadrature, provided the material density
is positive, at least the smallest grid point lies below the power-law
cut-off `a_max`, and the Gaussian width is nonzero (the cases excluded
by the counterexample are exactly those whose unnormalized mass
integral vanishes). -/
theorem size_distribution_normalization_amended
    (a0 a1 : ℝ) (t : List ℝ)
    (hchain : List.Chain' (· < ·) (a0 :: a1 :: t))
    (hpos : ∀ x ∈ a0 :: a1 :: t, 0 < x)
    (a_max q rho_s : ℝ) (hrho : 0 < rho_s) (hcut : a0 ≤ a_max)
    (a_mean sigma_a : ℝ) (hsig : sigma_a ≠ 0) :
    trapz (List.zipWith (· * ·) (powerlaw_N_of_a (a0 :: a1 :: t) a_max q rho_s)
        ((a0 :: a1 :: t).map fun x => 4 * Real.pi / 3 * rho_s * x ^ 3))
      (a0 :: a1 :: t) = 1 ∧
    trapz (List.zipWith (· * ·) (gaussian_N_of_a (a0 :: a1 :: t) a_mean sigma_a rho_s)
        ((a0 :: a1 :: t).map fun x => 4 * Real.pi / 3 * rho_s * x ^ 3))
      (a0 :: a1 :: t) = 1 := by
  have hmass : ∀ x ∈ a0 :: a1 :: t, 0 < 4 * Real.pi / 3 * rho_s * x ^ 3 := by
    intro x hx
    have := hpos x hx
    positivity
  have ha0 : (0:ℝ) < a0 := hpos a0 (List.mem_cons_self a0 _)
  constructor
  · unfold powerlaw_N_of_a
    apply trapz_norm_one
      (fun x => x ^ (-q) * (if x ≤ a_max then (1:ℝ) else 0))
      (fun x => 4 * Real.pi / 3 * rho_s * x ^ 3) a0 a1 t hchain
    · intro x hx
      have hx0 := hpos x hx
      have hw : 0 ≤ x ^ (-q) * (if x ≤ a_max then (1:ℝ) else 0) := by
        have := Real.rpow_pos_of_pos hx0 (-q)
        by_cases hxc : x ≤ a_max
        · simp [hxc]
          positivity
        · simp [hxc]
      exact mul_nonneg hw (hmass x hx).le
    · have hw : (0:ℝ) < a0 ^ (-q) * (if a0 ≤ a_max then (1:ℝ) else 0) := by
        rw [if_pos hcut, mul_one]
        exact Real.rpow_pos_of_pos ha0 (-q)
      exact mul_pos hw (hmass a0 (List.mem_cons_self a0 _))
  · unfold gaussian_N_of_a
    apply trapz_norm_one
      (fun x => Real.exp (-((x - a_mean) ^ 2 / (2 * sigma_a ^ 2))))
      (fun x => 4 * Real.pi / 3 * rho_s * x ^ 3) a0 a1 t hchain
    · intro x hx
      exact mul_nonneg (Real.exp_pos _).le (hmass x hx).le
    · exact mul_pos (Real.exp_pos _) (hmass a0 (List.mem_cons_self a0 _))

/-- Witness for the amended C4 on the grid `[1, 2]`. -/
theorem size_distribution_normalization_amended_witness :
    (List.Chain' (· < ·) [(1:ℝ), 2] ∧ (∀ x ∈ [(1:ℝ), 2], 0 < x) ∧
      (0:ℝ) < 1 ∧ (1:ℝ) ≤ 2 ∧ (1:ℝ) ≠ 0) ∧
    trapz (List.zipWith (· * ·) (powerlaw_N_of_a [(1:ℝ), 2] 2 0 1)
        ([(1:ℝ), 2].map fun x => 4 * Real.pi / 3 * 1 * x ^ 3)) [(1:ℝ), 2] = 1 := by
  have hchain : List.Chain' (· < ·) [(1:ℝ), 2] := by
    norm_num
  have hpos : ∀ x ∈ [(1:ℝ), 2], 0 < x := by
    intro x hx
    simp at hx
    rcases hx with rfl | rfl <;> norm_num
  exact ⟨⟨hchain, hpos, by norm_num, by norm_num, by norm_num⟩,
    (size_distribution_normalization_amended 1 2 [] hchain hpos 2 0 1
      (by norm_num) (by norm_num) 0 1 (by norm_num)).1⟩

/-- `np.logspace` produces exactly `num` samples. -/
theorem logspace_length (a b : ℝ) (num : ℕ) : (logspace a b num).length = num := by
  simp [logspace]

/-- All `np.logspace` samples lie between the endpoint powers. -/
theorem mem_logspace_bounds (a b : ℝ) (num : ℕ) (hab : a ≤ b) (hnum : 2 ≤ num) :
    ∀ x ∈ logspace a b num, (10:ℝ) ^ a ≤ x ∧ x ≤ (10:ℝ) ^ b := by
  intro x hx
  simp only [logspace, List.mem_map, List.mem_range] at hx
  obtain ⟨i, hi, rfl⟩ := hx
  have hden : (0:ℝ) < (num : ℝ) - 1 := by
    have : (2:ℝ) ≤ (num : ℝ) := by exact_mod_cast hnum
    linarith
  have hstep : 0 ≤ (b - a) / ((num : ℝ) - 1) :=
    div_nonneg (sub_nonneg.mpr hab) hden.le
  constructor
  · apply Real.rpow_le_rpow_of_exponent_le (by norm_num)
    nlinarith [mul_nonneg (by positivity : (0:ℝ) ≤ (i:ℝ)) hstep]
  · apply Real.rpow_le_rpow_of_exponent_le (by norm_num)
    have hile : (i : ℝ) ≤ (num : ℝ) - 1 := by
      have : (i:ℝ) + 1 ≤ (num:ℝ) := by exact_mod_cast hi
      linarith
    have h1 : (i:ℝ) * ((b - a) / ((num : ℝ) - 1)) ≤
        ((num : ℝ) - 1) * ((b - a) / ((num : ℝ) - 1)) :=
      mul_le_mul_of_nonneg_right hile hstep
    have h2 : ((num : ℝ) - 1) * ((b - a) / ((num : ℝ) - 1)) = b - a := by
      field_simp
    linarith

/-- The top endpoint power survives dropping the first `np.logspace`
sample. -/
theorem logspace_tail_mem_top (a b : ℝ) (num : ℕ) (hnum : 2 ≤ num) :
    (10:ℝ) ^ b ∈ (logspace a b num).tail := by
  obtain ⟨m, rfl⟩ : ∃ m, num = m + 2 := ⟨num - 2, by omega⟩
  unfold logspace
  rw [List.range_succ_eq_map]
  simp only [List.map_cons, List.tail_cons, List.map_map]
  rw [List.mem_map]
  refine ⟨m, by simp, ?_⟩
  simp only [Function.comp]
  have hc : ((Nat.succ m : ℕ) : ℝ) = (m : ℝ) + 1 := by push_cast; ring
  rw [hc]
  have hcc : ((m + 2 : ℕ) : ℝ) - 1 = (m : ℝ) + 1 := by push_cast; ring
  rw [hcc]
  rw [show ((m:ℝ) + 1) * ((b - a) / ((m:ℝ) + 1)) = b - a from by
    have : ((m:ℝ) + 1) ≠ 0 := by positivity
    field_simp]
  ring_nf

/-- The bottom endpoint power survives dropping the last `np.logspace`
sample. -/
theorem logspace_dropLast_mem_bot (a b : ℝ) (num : ℕ) (hnum : 2 ≤ num) :
    (10:ℝ) ^ a ∈ (logspace a b num).dropLast := by
  obtain ⟨m, rfl⟩ : ∃ m, num = m + 2 := ⟨num - 2, by omega⟩
  unfold logspace
  rw [List.range_succ_eq_map, List.range_succ_eq_map]
  simp only [List.map_cons, List.map_map, List.dropLast_cons₂]
  have h0 : (10:ℝ) ^ (a + ((0:ℕ):ℝ) * ((b - a) / (((m+2 : ℕ) : ℝ) - 1))) =
      (10:ℝ) ^ a := by norm_num
  rw [← h0]
  exact List.mem_cons_self _ _

/-- C8 counterexample: extending the two-point spectrum `[1, 10]` upward
with `num_points = 3` appends only `3 - 1 = 2` new samples — the
`logspace(...)[1:]` slice drops the sample that duplicates the existing
boundary — so the claimed count of exactly `n` new samples fails. -/
theorem extrapolate_count_cex :
    (extrapolate_constants_up (diel_const_mk [1, 10] [1, 1] [1, 1]) 100 3
        (fun _ => 1) (fun _ => 1)).l.length = 4 ∧
    (4 : ℕ) ≠ (diel_const_mk [(1:ℝ), 10] [1, 1] [1, 1]).l.length + 3 := by
  constructor
  · simp [extrapolate_constants_up, diel_const_mk, logspace]
  · simp [diel_const_mk]

/-- C8 amended: each extension call generates exactly `n - 1` new
samples out to the target bound, appends (respectively prepends) them,
leaves the original samples unchanged, and updates the stored bounds to
the new extremes — the target bound on the extended side, the original
boundary value on the other. -/
theorem extrapolate_extension_amended
    (d : DielConst) (lmaxT lminT : ℝ) (num : ℕ) (fn fk : ℝ → ℝ)
    (hsort : d.l.Sorted (· ≤ ·)) (hne : d.l ≠ [])
    (hpos : ∀ x ∈ d.l, 0 < x) (hnum : 2 ≤ num)
    (hup : d.l.getLastD 0 < lmaxT)
    (hdownpos : 0 < lminT) (hdown : lminT < d.l.headD 0) :
    ((∃ ext : List ℝ, ext.length = num - 1 ∧
        (extrapolate_constants_up d lmaxT num fn fk).l = d.l ++ ext ∧
        (extrapolate_constants_up d lmaxT num fn fk).n = d.n ++ ext.map fn ∧
        (extrapolate_constants_up d lmaxT num fn fk).k = d.k ++ ext.map fk) ∧
      (extrapolate_constants_up d lmaxT num fn fk).lmax = lmaxT ∧
      (extrapolate_constants_up d lmaxT num fn fk).lmin = d.l.headD 0) ∧
    ((∃ ext : List ℝ, ext.length = num - 1 ∧
        (extrapolate_constants_down d lminT num fn fk).l = ext ++ d.l ∧
        (extrapolate_constants_down d lminT num fn fk).n = ext.map fn ++ d.n ∧
        (extrapolate_constants_down d lminT num fn fk).k = ext.map fk ++ d.k) ∧
      (extrapolate_constants_down d lminT num fn fk).lmin = lminT ∧
      (extrapolate_constants_down d lminT num fn fk).lmax = d.l.getLastD 0) := by
  have hglmem : d.l.getLastD 0 ∈ d.l := getLastD_mem d.l 0 hne
  have hglpos : 0 < d.l.getLastD 0 := hpos _ hglmem
  have hhdmem : d.l.headD 0 ∈ d.l := headD_mem d.l 0 hne
  have hhdpos : 0 < d.l.headD 0 := hpos _ hhdmem
  have hlmaxpos : 0 < lmaxT := lt_trans hglpos hup
  have hhdgl : d.l.headD 0 ≤ d.l.getLastD 0 := sorted_le_getLastD d.l 0 hsort _ hhdmem
  have h10 : (0:ℝ) < 10 := by norm_num
  have h10ne : (10:ℝ) ≠ 1 := by norm_num
  constructor
  · -- upward extension
    set la := log10R (d.l.getLastD 0) with hla
    set lb := log10R lmaxT with hlb
    have hlalb : la < lb := Real.logb_lt_logb (by norm_num) hglpos hup
    have hpa : (10:ℝ) ^ la = d.l.getLastD 0 := Real.rpow_logb h10 h10ne hglpos
    have hpb : (10:ℝ) ^ lb = lmaxT := Real.rpow_logb h10 h10ne hlmaxpos
    refine ⟨⟨(logspace la lb num).tail, ?_, rfl, rfl, rfl⟩, ?_, ?_⟩
    · rw [List.length_tail, logspace_length]
    · show npMax (d.l ++ (logspace la lb num).tail) = lmaxT
      apply npMax_eq_of
      · exact List.mem_append_right _ (hpb ▸ logspace_tail_mem_top la lb num hnum)
      · intro y hy
        rcases List.mem_append.mp hy with hy | hy
        · exact le_trans (sorted_le_getLastD d.l 0 hsort y hy) hup.le
        · have := (mem_logspace_bounds la lb num hlalb.le hnum y
            (List.mem_of_mem_tail hy)).2
          rw [hpb] at this
          exact this
    · show npMin (d.l ++ (logspace la lb num).tail) = d.l.headD 0
      apply npMin_eq_of
      · exact List.mem_append_left _ hhdmem
      · intro y hy
        rcases List.mem_append.mp hy with hy | hy
        · exact sorted_headD_le hsort 0 y hy
        · have := (mem_logspace_bounds la lb num hlalb.le hnum y
            (List.mem_of_mem_tail hy)).1
          rw [hpa] at this
          exact le_trans (le_trans hhdgl this) (le_refl y)
  · -- downward extension
    set la := log10R lminT with hla
    set lb := log10R (d.l.headD 0) with hlb
    have hlalb : la < lb := Real.logb_lt_logb (by norm_num) hdownpos hdown
    have hpa : (10:ℝ) ^ la = lminT := Real.rpow_logb h10 h10ne hdownpos
    have hpb : (10:ℝ) ^ lb = d.l.headD 0 := Real.rpow_logb h10 h10ne hhdpos
    refine ⟨⟨(logspace la lb num).dropLast, ?_, rfl, rfl, rfl⟩, ?_, ?_⟩
    · rw [List.length_dropLast, logspace_length]
    · show npMin ((logspace la lb num).dropLast ++ d.l) = lminT
      apply npMin_eq_of
      · exact List.mem_append_left _ (hpa ▸ logspace_dropLast_mem_bot la lb num hnum)
      · intro y hy
        rcases List.mem_append.mp hy with hy | hy
        · have := (mem_logspace_bounds la lb num hlalb.le hnum y
            (List.mem_of_mem_dropLast hy)).1
          rw [hpa] at this
          exact this
        · exact le_trans hdown.le (sorted_headD_le hsort 0 y hy)
    · show npMax ((logspace la lb num).dropLast ++ d.l) = d.l.getLastD 0
      apply npMax_eq_of
      · exact List.mem_append_right _ hglmem
      · intro y hy
        rcases List.mem_append.mp hy with hy | hy
        · have := (mem_logspace_bounds la lb num hlalb.le hnum y
            (List.mem_of_mem_dropLast hy)).2
          rw [hpb] at this
          exact le_trans this hhdgl
        · exact sorted_le_getLastD d.l 0 hsort y hy

/-- Witness for the amended C8 on the spectrum `[1, 10]` extended up to
100 and down to 1/10 with `num_points = 2`. -/
theorem extrapolate_extension_amended_witness :
    ((diel_const_mk [(1:ℝ), 10] [1, 1] [1, 1]).l.Sorted (· ≤ ·) ∧
      (diel_const_mk [(1:ℝ), 10] [1, 1] [1, 1]).l ≠ [] ∧
      (∀ x ∈ (diel_const_mk [(1:ℝ), 10] [1, 1] [1, 1]).l, 0 < x) ∧
      (2:ℕ) ≤ 2 ∧
      (diel_const_mk [(1:ℝ), 10] [1, 1] [1, 1]).l.getLastD 0 < 100 ∧
      (0:ℝ) < 1/10 ∧
      (1/10 : ℝ) < (diel_const_mk [(1:ℝ), 10] [1, 1] [1, 1]).l.headD 0) ∧
    (extrapolate_constants_up (diel_const_mk [(1:ℝ), 10] [1, 1] [1, 1]) 100 2
      (fun _ => 1) (fun _ => 1)).lmax = 100 := by
  have hsort : (diel_const_mk [(1:ℝ), 10] [1, 1] [1, 1]).l.Sorted (· ≤ ·) := by
    norm_num [diel_const_mk]
  have hne : (diel_const_mk [(1:ℝ), 10] [1, 1] [1, 1]).l ≠ [] := by
    simp [diel_const_mk]
  have hpos : ∀ x ∈ (diel_const_mk [(1:ℝ), 10] [1, 1] [1, 1]).l, 0 < x := by
    intro x hx
    simp [diel_const_mk] at hx
    rcases hx with rfl | rfl <;> norm_num
  have hup : (diel_const_mk [(1:ℝ), 10] [1, 1] [1, 1]).l.getLastD 0 < 100 := by
    norm_num [diel_const_mk]
  have hdownpos : (0:ℝ) < 1/10 := by norm_num
  have hdown : (1/10 : ℝ) < (diel_const_mk [(1:ℝ), 10] [1, 1] [1, 1]).l.headD 0 := by
    norm_num [diel_const_mk]
  exact ⟨⟨hsort, hne, hpos, le_refl 2, hup, hdownpos, hdown⟩,
    ((extrapolate_extension_amended (diel_const_mk [(1:ℝ), 10] [1, 1] [1, 1])
      100 (1/10) 2 (fun _ => 1) (fun _ => 1) hsort hne hpos (le_refl 2)
      hup hdownpos hdown).1).2.1⟩


/-- Extrapolated rows copy the last Mie-loop row (`mieRowOf`, taken
branch). -/
theorem mieRowOf_pos (bhmie : ℝ → MieOut) (X c : List ℝ) (i : ℕ)
    (h : i < c.length) :
    mieRowOf bhmie X c i =
      ((bhmie (c.get ⟨i, h⟩)).Qabs, (bhmie (c.get ⟨i, h⟩)).Qsca,
       (bhmie (c.get ⟨i, h⟩)).gsca.re) := by
  unfold mieRowOf
  rw [dif_pos h]

/-- Rows beyond the cut list reuse the last computed efficiencies and
the geometric-optics asymmetry (`mieRowOf`, untaken branch). -/
theorem mieRowOf_neg (bhmie : ℝ → MieOut) (X c : List ℝ) (i : ℕ)
    (h : ¬ (i < c.length)) :
    mieRowOf bhmie X c i =
      ((bhmie (c.getLastD 0)).Qabs, (bhmie (c.getLastD 0)).Qsca,
       0.3 * (X.getD i 0) ^ 2 / (1 + 0.3 * (X.getD i 0) ^ 2)) := by
  unfold mieRowOf
  rw [dif_neg h]

/-- The convergence mask is antitone in the size parameter: a larger
size parameter can only push the recursion order `nmx` higher. -/
theorem maskB_antitone (nr kr x y : ℝ) (hx : 0 ≤ x) (hxy : x ≤ y)
    (hm : maskB nr kr y = true) : maskB nr kr x = true := by
  rw [maskB, decide_eq_true_eq] at hm ⊢
  have hxs : xstopF x ≤ xstopF y := by
    unfold xstopF
    have := Real.rpow_le_rpow hx hxy (by norm_num : (0:ℝ) ≤ 0.333333)
    linarith
  have habs : Complex.abs ((x : ℂ) * ((nr : ℂ) + (kr : ℂ) * Complex.I)) ≤
      Complex.abs ((y : ℂ) * ((nr : ℂ) + (kr : ℂ) * Complex.I)) := by
    rw [map_mul, map_mul, Complex.abs_ofReal, Complex.abs_ofReal,
      abs_of_nonneg hx, abs_of_nonneg (le_trans hx hxy)]
    exact mul_le_mul_of_nonneg_right hxy (Complex.abs.nonneg _)
  have hmax : max (xstopF x) (Complex.abs ((x : ℂ) * ((nr : ℂ) + (kr : ℂ) * Complex.I))) ≤
      max (xstopF y) (Complex.abs ((y : ℂ) * ((nr : ℂ) + (kr : ℂ) * Complex.I))) :=
    max_le_max hxs habs
  have hx0 : (0:ℝ) ≤ max (xstopF x)
      (Complex.abs ((x : ℂ) * ((nr : ℂ) + (kr : ℂ) * Complex.I))) := by
    refine le_trans ?_ (le_max_left _ _)
    unfold xstopF
    have := Real.rpow_nonneg hx (0.333333 : ℝ)
    linarith
  have hy0 : (0:ℝ) ≤ max (xstopF y)
      (Complex.abs ((y : ℂ) * ((nr : ℂ) + (kr : ℂ) * Complex.I))) :=
    le_trans hx0 hmax
  unfold nmxF astypeInt
  unfold nmxF astypeInt at hm
  rw [if_pos hx0]
  rw [if_pos hy0] at hm
  have := Int.floor_le_floor hmax
  omega

/-- On a sorted list an antitone predicate filters exactly its leading
run. -/
theorem filter_eq_takeWhile_sorted (p : ℝ → Bool) :
    ∀ l : List ℝ, l.Sorted (· ≤ ·) →
      (∀ x ∈ l, ∀ y ∈ l, x ≤ y → p y = true → p x = true) →
      l.filter p = l.takeWhile p
  | [], _, _ => rfl
  | a :: t, hs, hp => by
    rw [List.filter_cons, List.takeWhile_cons]
    by_cases hpa : p a = true
    · rw [if_pos hpa, if_pos hpa]
      have ht := filter_eq_takeWhile_sorted p t (List.sorted_cons.mp hs).2
        fun x hx y hy hxy hpy =>
          hp x (List.mem_cons_of_mem a hx) y (List.mem_cons_of_mem a hy) hxy hpy
      rw [ht]
    · rw [if_neg hpa, if_neg hpa]
      rw [List.filter_eq_nil_iff]
      intro x hx
      by_contra hpx
      have hax : a ≤ x := (List.sorted_cons.mp hs).1 x hx
      exact hpa (hp a (List.mem_cons_self a t) x (List.mem_cons_of_mem a hx) hax
        (by revert hpx; cases p x <;> simp))

/-- An index all of whose predecessors satisfy the predicate lies
within the `takeWhile` run. -/
theorem lt_length_takeWhile_of (p : ℝ → Bool) :
    ∀ (l : List ℝ) (i : ℕ) (hi : i < l.length),
      (∀ j (hj : j ≤ i), p (l.get ⟨j, lt_of_le_of_lt hj hi⟩) = true) →
      i < (l.takeWhile p).length
  | a :: t, 0, hi, hall => by
    have hpa : p a = true := hall 0 (le_refl 0)
    rw [List.takeWhile_cons, if_pos hpa]
    simp
  | a :: t, i + 1, hi, hall => by
    have hpa : p a = true := hall 0 (by omega)
    rw [List.takeWhile_cons, if_pos hpa]
    have ih := lt_length_takeWhile_of p t i (by simpa using hi)
      fun j hj => hall (j + 1) (by omega)
    simpa using ih

/-- C1: for an ascending nonnegative size grid and a positive
wavelength, whenever at least one size keeps its recursion order
`nmx = int(max(Xstop, |x m|)) + 15` under the safety threshold of
200000 terms, extrapolation mode gives every at-or-above-threshold size
the `Q_abs`, `Q_sca` of the last below-threshold size and the
geometric-optics asymptote `0.3 x^2 / (1 + 0.3 x^2)` for `g`, while
below-threshold sizes are computed directly; with extrapolation
disabled every size is computed directly and only the cost warning is
issued when the recursion-order estimate at the largest size parameter
exceeds 2e5. -/
theorem mie_large_grain_extrapolation_policy
    (bhmie : ℝ → MieOut) (xb nr kr lam : ℝ) (A LAM : List ℝ)
    (hsort : A.Sorted (· ≤ ·)) (hpos : ∀ a ∈ A, 0 ≤ a) (hlam : 0 < lam)
    (hex : ∃ a ∈ A, maskB nr kr (sizeParam lam a) = true) :
    (∀ i, (hi : i < A.length) →
      maskB nr kr (sizeParam lam (A.get ⟨i, hi⟩)) = false →
        ((A.map (sizeParam lam)).filter (maskB nr kr)).length ≤ i ∧
        (mieRow bhmie xb true nr kr lam A i).1 =
          (mieRow bhmie xb true nr kr lam A
            (((A.map (sizeParam lam)).filter (maskB nr kr)).length - 1)).1 ∧
        (mieRow bhmie xb true nr kr lam A i).2.1 =
          (mieRow bhmie xb true nr kr lam A
            (((A.map (sizeParam lam)).filter (maskB nr kr)).length - 1)).2.1 ∧
        (mieRow bhmie xb true nr kr lam A i).2.2 =
          0.3 * (sizeParam lam (A.get ⟨i, hi⟩)) ^ 2 /
            (1 + 0.3 * (sizeParam lam (A.get ⟨i, hi⟩)) ^ 2)) ∧
    (∀ i, (hi : i < A.length) →
      maskB nr kr (sizeParam lam (A.get ⟨i, hi⟩)) = true →
        mieRow bhmie xb true nr kr lam A i =
          ((bhmie (sizeParam lam (A.get ⟨i, hi⟩))).Qabs,
           (bhmie (sizeParam lam (A.get ⟨i, hi⟩))).Qsca,
           (bhmie (sizeParam lam (A.get ⟨i, hi⟩))).gsca.re)) ∧
    (∀ i, (hi : i < A.length) →
      mieRow bhmie xb false nr kr lam A i =
        ((bhmie (sizeParam lam (A.get ⟨i, hi⟩))).Qabs,
         (bhmie (sizeParam lam (A.get ⟨i, hi⟩))).Qsca,
         (bhmie (sizeParam lam (A.get ⟨i, hi⟩))).gsca.re)) ∧
    ((200000 : ℝ) < xstopF (2 * Real.pi / npMin LAM * npMax A) + 15 →
      mieWarn false A LAM = true) := by
  have hcoef : 0 ≤ 2 * Real.pi / lam := by positivity
  set X := A.map (sizeParam lam) with hXdef
  have hXsort : X.Sorted (· ≤ ·) := by
    rw [hXdef, List.Sorted, List.pairwise_map]
    exact hsort.imp fun hab => mul_le_mul_of_nonneg_left hab hcoef
  have hXpos : ∀ x ∈ X, 0 ≤ x := by
    intro x hx
    rw [hXdef, List.mem_map] at hx
    obtain ⟨a, ha, rfl⟩ := hx
    exact mul_nonneg hcoef (hpos a ha)
  have hanti : ∀ x ∈ X, ∀ y ∈ X, x ≤ y → maskB nr kr y = true → maskB nr kr x = true :=
    fun x hx y _ hxy hm => maskB_antitone nr kr x y (hXpos x hx) hxy hm
  have hftw : X.filter (maskB nr kr) = X.takeWhile (maskB nr kr) :=
    filter_eq_takeWhile_sorted (maskB nr kr) X hXsort hanti
  set c := X.filter (maskB nr kr) with hcdef
  have hlenA : X.length = A.length := by rw [hXdef, List.length_map]
  have hXget : ∀ i, (hi : i < A.length) → ∀ hi2 : i < X.length,
      X.get ⟨i, hi2⟩ = sizeParam lam (A.get ⟨i, hi⟩) := by
    intro i hi hi2
    simp only [List.get_eq_getElem, hXdef, List.getElem_map]
  obtain ⟨tr, htr⟩ : ∃ tr, X = c ++ tr := by
    obtain ⟨tr, htr⟩ := List.takeWhile_prefix (l := X) (maskB nr kr)
    exact ⟨tr, by rw [hftw]; exact htr.symm⟩
  have hclen_le : c.length ≤ X.length := by
    rw [htr, List.length_append]
    omega
  have hcget : ∀ j, (hj : j < c.length) → ∀ hj2 : j < X.length,
      c.get ⟨j, hj⟩ = X.get ⟨j, hj2⟩ := by
    intro j hj hj2
    have hopt : X.get? j = c.get? j := by
      rw [htr]
      exact List.get?_append hj
    rw [List.get?_eq_get hj2, List.get?_eq_get hj] at hopt
    exact (Option.some_injective _ hopt).symm
  have hcp : ∀ j, (hj : j < c.length) →
      maskB nr kr (c.get ⟨j, hj⟩) = true := by
    intro j hj
    have hmem : c.get ⟨j, hj⟩ ∈ c := List.get_mem c j hj
    have hmem2 : c.get ⟨j, hj⟩ ∈ X.takeWhile (maskB nr kr) := by
      rw [← hftw]
      exact hmem
    exact List.mem_takeWhile_imp hmem2
  have hcpos : 0 < c.length := by
    obtain ⟨a, ha, hma⟩ := hex
    have hmem : sizeParam lam a ∈ c := by
      rw [hcdef, List.mem_filter]
      exact ⟨by rw [hXdef]; exact List.mem_map_of_mem _ ha, hma⟩
    exact List.length_pos.mpr (List.ne_nil_of_mem hmem)
  have hcne' : c ≠ [] := by
    intro hnil
    rw [hnil] at hcpos
    simp at hcpos
  have hcne : ¬ (c.isEmpty = true) := by
    rw [List.isEmpty_iff]
    exact hcne'
  have hxcut : xcutList true xb nr kr X = c := by
    unfold xcutList
    rw [← hcdef]
    simp only [if_true]
    rw [if_neg hcne]
  have hAne : A ≠ [] := by
    obtain ⟨a, ha, _⟩ := hex
    exact List.ne_nil_of_mem ha
  have hXne : ¬ (X.isEmpty = true) := by
    intro hemp
    rw [List.isEmpty_iff, hXdef] at hemp
    exact hAne (List.map_eq_nil.mp hemp)
  have hxcutF : xcutList false xb nr kr X = X := by
    unfold xcutList
    simp only [Bool.false_eq_true, if_false]
    rw [if_neg hXne]
  refine ⟨?_, ?_, ?_, ?_⟩
  · intro i hi hmaskf
    have hile : c.length ≤ i := by
      by_contra hlt
      push_neg at hlt
      have hmt := hcp i hlt
      rw [hcget i hlt (by omega), hXget i hi (by omega)] at hmt
      rw [hmt] at hmaskf
      cases hmaskf
    have hlast : c.getLastD 0 = c.get ⟨c.length - 1, by omega⟩ := by
      rw [List.getLastD_eq_getLast?, List.getLast?_eq_getLast c hcne',
        Option.getD_some, List.getLast_eq_get]
    have hrow_i : mieRow bhmie xb true nr kr lam A i =
        ((bhmie (c.getLastD 0)).Qabs, (bhmie (c.getLastD 0)).Qsca,
         0.3 * (X.getD i 0) ^ 2 / (1 + 0.3 * (X.getD i 0) ^ 2)) := by
      unfold mieRow
      rw [← hXdef, hxcut]
      exact mieRowOf_neg bhmie X c i (by omega)
    have hrow_l : mieRow bhmie xb true nr kr lam A (c.length - 1) =
        ((bhmie (c.get ⟨c.length - 1, by omega⟩)).Qabs,
         (bhmie (c.get ⟨c.length - 1, by omega⟩)).Qsca,
         (bhmie (c.get ⟨c.length - 1, by omega⟩)).gsca.re) := by
      unfold mieRow
      rw [← hXdef, hxcut]
      exact mieRowOf_pos bhmie X c (c.length - 1) (by omega)
    have hgetd : X.getD i 0 = sizeParam lam (A.get ⟨i, hi⟩) := by
      rw [List.getD_eq_getElem _ _ (by omega : i < X.length),
        ← List.get_eq_getElem X ⟨i, by omega⟩, hXget i hi (by omega)]
    refine ⟨hile, ?_, ?_, ?_⟩
    · rw [hrow_i, hrow_l, hlast]
    · rw [hrow_i, hrow_l, hlast]
    · rw [hrow_i, hgetd]
  · intro i hi hmaskt
    have hilt : i < c.length := by
      rw [hcdef, hcdef.symm.trans hftw]
      apply lt_length_takeWhile_of (maskB nr kr) X i (by omega)
      intro j hj
      apply maskB_antitone nr kr _ _ (hXpos _ (List.get_mem X j _))
        (?_ : X.get ⟨j, _⟩ ≤ X.get ⟨i, by omega⟩)
      · rw [hXget i hi (by omega)]
        exact hmaskt
      · rcases Nat.lt_or_ge j i with hlt | hge
        · exact List.pairwise_iff_get.mp hXsort ⟨j, by omega⟩ ⟨i, by omega⟩
            (by simpa using hlt)
        · have hji : j = i := by omega
          subst hji
          exact le_refl _
    unfold mieRow
    rw [← hXdef, hxcut]
    rw [mieRowOf_pos bhmie X c i hilt, hcget i hilt (by omega), hXget i hi (by omega)]
  · intro i hi
    unfold mieRow
    rw [← hXdef, hxcutF]
    rw [mieRowOf_pos bhmie X X i (by omega), hXget i hi (by omega)]
  · intro hbig
    unfold mieWarn
    simp only [Bool.not_false, Bool.and_true]
    exact decide_eq_true hbig

/-- Witness for C1: a one-point grid whose recursion order is far below
the threshold, swept at wavelength `2 pi` with refractive index
`1 + 0i`. -/
theorem mie_large_grain_extrapolation_policy_witness :
    (List.Sorted (· ≤ ·) [(1:ℝ)] ∧ (∀ a ∈ [(1:ℝ)], 0 ≤ a) ∧
      (0:ℝ) < 2 * Real.pi ∧
      (∃ a ∈ [(1:ℝ)], maskB 1 0 (sizeParam (2 * Real.pi) a) = true)) ∧
    mieRow (fun x => MieOut.mk [] [] 0 x x 0 0) 0 false 1 0 (2 * Real.pi)
        [(1:ℝ)] 0 =
      (((fun x => MieOut.mk [] [] 0 x x 0 0)
          (sizeParam (2 * Real.pi) ([(1:ℝ)].get ⟨0, by norm_num⟩))).Qabs,
       ((fun x => MieOut.mk [] [] 0 x x 0 0)
          (sizeParam (2 * Real.pi) ([(1:ℝ)].get ⟨0, by norm_num⟩))).Qsca,
       ((fun x => MieOut.mk [] [] 0 x x 0 0)
          (sizeParam (2 * Real.pi) ([(1:ℝ)].get ⟨0, by norm_num⟩))).gsca.re) := by
  have hsp : sizeParam (2 * Real.pi) 1 = 1 := by
    unfold sizeParam
    rw [div_self (by positivity : (2:ℝ) * Real.pi ≠ 0), mul_one]
  have habs : Complex.abs ((1 : ℂ) * ((1 : ℝ) + (0 : ℝ) * Complex.I)) = 1 := by
    simp
  have hxs : xstopF 1 = 7 := by
    unfold xstopF
    rw [Real.one_rpow]
    norm_num
  have hmask : maskB 1 0 1 = true := by
    rw [maskB, decide_eq_true_eq]
    unfold nmxF
    rw [show ((1:ℝ) : ℂ) * (((1:ℝ) : ℂ) + ((0:ℝ) : ℂ) * Complex.I) =
        (1 : ℂ) * ((1 : ℝ) + (0 : ℝ) * Complex.I) from by push_cast; ring]
    rw [habs, hxs]
    rw [show max (7:ℝ) 1 = 7 from by norm_num]
    unfold astypeInt
    rw [if_pos (by norm_num : (0:ℝ) ≤ 7)]
    norm_num
  have hsort : List.Sorted (· ≤ ·) [(1:ℝ)] := by simp
  have hpos : ∀ a ∈ [(1:ℝ)], 0 ≤ a := by norm_num
  have hlam : (0:ℝ) < 2 * Real.pi := by positivity
  have hex : ∃ a ∈ [(1:ℝ)], maskB 1 0 (sizeParam (2 * Real.pi) a) = true := by
    refine ⟨1, by simp, ?_⟩
    rw [hsp]
    exact hmask
  exact ⟨⟨hsort, hpos, hlam, hex⟩,
    (mie_large_grain_extrapolation_policy (fun x => MieOut.mk [] [] 0 x x 0 0)
      0 1 0 (2 * Real.pi) [(1:ℝ)] [(1:ℝ)] hsort hpos hlam hex).2.2.1 0
      (by norm_num)⟩

/-- C9: with two or more query wavelengths, `diel_mixed.nk` returns
during the first loop iteration: entry 0 is the square-rooted mixed
permittivity at the first wavelength, every later entry is the
square-rooted uninitialized `np.empty` contents, and the result is
entirely independent of the later wavelengths. -/
theorem diel_mixed_nk_early_return (rule : MixingRule)
    (findroot : (ℂ → ℂ) → ℂ → ℂ) (constituents : List (ℝ → ℝ × ℝ))
    (abundances : List ℝ) (init : ℕ → ℂ) (l0 : ℝ) (rest : List ℝ)
    (h : rest ≠ []) :
    diel_mixed_nk rule findroot constituents abundances init (l0 :: rest) =
      some ((((List.range (rest.length + 1)).map fun j =>
          csqrt (if j = 0 then mix_eps rule findroot abundances (eps_at constituents l0)
                 else init j)).map Complex.re),
            (((List.range (rest.length + 1)).map fun j =>
          csqrt (if j = 0 then mix_eps rule findroot abundances (eps_at constituents l0)
                 else init j)).map Complex.im)) ∧
    (∀ rest2 : List ℝ, rest2.length = rest.length →
      diel_mixed_nk rule findroot constituents abundances init (l0 :: rest2) =
        diel_mixed_nk rule findroot constituents abundances init (l0 :: rest)) := by
  constructor
  · simp [diel_mixed_nk]
  · intro rest2 hlen
    simp [diel_mixed_nk, hlen]

/-- Witness for C9 with wavelength array `[1, 2]`. -/
theorem diel_mixed_nk_early_return_witness :
    ([(2:ℝ)] ≠ []) ∧
    (∀ rest2 : List ℝ, rest2.length = [(2:ℝ)].length →
      diel_mixed_nk MixingRule.maxwellGarnett (fun _ _ => 0) [fun _ => ((1:ℝ), (0:ℝ))]
          [1] (fun _ => 0) ((1:ℝ) :: rest2) =
        diel_mixed_nk MixingRule.maxwellGarnett (fun _ _ => 0) [fun _ => ((1:ℝ), (0:ℝ))]
          [1] (fun _ => 0) ((1:ℝ) :: [(2:ℝ)])) :=
  ⟨by simp,
    (diel_mixed_nk_early_return MixingRule.maxwellGarnett (fun _ _ => 0)
      [fun _ => ((1:ℝ), (0:ℝ))] [1] (fun _ => 0) 1 [(2:ℝ)] (by simp)).2⟩

end DsharpOpac
